import Mathlib

/-!
Verification of the go_blockchain ledger core.

The Go sources are shallowly embedded: Go strings become `List Char`,
Go `int` becomes `Int`, byte slices become `List Nat`, and the two
`map[string][]int` tables become association lists whose only observers
are lookups, matching the Go code's use of the maps.  The SHA-256
function from `crypto/sha256` is embedded concretely below; theorems
that do not depend on the hash's value quantify over the hash function.
The `gob` encoding underlying `Transaction.SetID` is not reproducible
bit-for-bit, so the transaction-identifier fingerprint is a parameter
`setID` of the definitions that use it.  Mutexes are dropped: the
embedding is the sequential semantics of the guarded operations.
-/

set_option autoImplicit false

namespace GoChain

/-- Go strings, modelled as lists of characters. -/
abbrev Str := List Char

/-- Conversion helper for writing string constants of the source. -/
def strOf (s : String) : Str := s.toList

/-- Bytes of a string (`[]byte(s)` in Go; all constants here are ASCII). -/
def strBytes (s : Str) : List Nat := s.map Char.toNat

/-- `TXInput` from transaction.go: a reference to a prior transaction's
output plus the unlocking token. -/
structure TXInput where
  Txid      : Str
  Vout      : Int
  ScriptSig : Str
  deriving DecidableEq, Repr

/-- `TXOutput` from transaction.go: a value and a locking token. -/
structure TXOutput where
  Value        : Int
  ScriptPubKey : Str
  deriving DecidableEq, Repr

/-- `Transaction` from transaction.go. -/
structure Transaction where
  ID   : Str
  Vin  : List TXInput
  Vout : List TXOutput
  deriving DecidableEq, Repr

/-- `Block` from part_000, fields in source order. -/
structure Block where
  Timestamp    : Str
  Transactions : List Transaction
  Hash         : Str
  PrevHash     : Str
  Nonce        : Str
  deriving DecidableEq, Repr

/-- `Blockchain` from part_000 (the mutex is dropped; the embedding is
the sequential semantics of the guarded operations). -/
structure Blockchain where
  blocks : List Block
  deriving DecidableEq, Repr

/-- `SendMessage` from part_000: the JSON payload of a transfer request. -/
structure SendMessage where
  From  : Str
  To    : Str
  Value : Int
  deriving DecidableEq, Repr

/-- `subsidy` constant from transaction.go. -/
def subsidy : Int := 10

/-- `difficulty` constant from part_000. -/
def difficulty : Nat := 1

/-- `genesisCoinbaseData` constant from part_000. -/
def genesisCoinbaseData : Str :=
  strOf ("The Times 03/Jan/2009 Chancellor on brink of second bailout for banks")

/-- `TXInput.CanUnlockOutputWith` from transaction.go. -/
def TXInput.CanUnlockOutputWith (i : TXInput) (unlockingData : Str) : Bool :=
  i.ScriptSig == unlockingData

/-- `TXOutput.CanBeUnlockedWith` from transaction.go. -/
def TXOutput.CanBeUnlockedWith (o : TXOutput) (unlockingData : Str) : Bool :=
  o.ScriptPubKey == unlockingData

/-- `Transaction.IsCoinbase` from transaction.go:
`len(tx.Vin) == 1 && len(tx.Vin[0].Txid) == 0 && tx.Vin[0].Vout == -1`. -/
def Transaction.IsCoinbase (tx : Transaction) : Bool :=
  match tx.Vin with
  | [i] => i.Txid.length == 0 && i.Vout == -1
  | _ => false

/-- `NewCoinbaseTX` from transaction.go.  `setID` stands for
`Transaction.SetID` (the sha256 of the gob encoding of the transaction
with its `ID` field still empty). -/
def NewCoinbaseTX (setID : Transaction → Str) (toAddr data : Str) : Transaction :=
  let d := if data = [] then
      strOf ("Reward to ") ++ [Char.ofNat 39] ++ toAddr ++ [Char.ofNat 39]
    else data
  let txin : TXInput := ⟨[], -1, d⟩
  let txout : TXOutput := ⟨subsidy, toAddr⟩
  let tx : Transaction := ⟨[], [txin], [txout]⟩
  { tx with ID := setID tx }

/-! ### The spent-outputs table

Go's `map[string][]int`, used both as `spentTXOs` in
`FindUnspentTransactions` and as `unspentOutputs` in
`FindSpendableOutputs`.  The Go code only ever appends to the slice at
a key and ranges over the slice at a key, so an association list with
those two operations is a faithful model. -/

abbrev SpentMap := List (Str × List Int)

/-- Reading `m[k]` (the zero value `[]` when the key is absent). -/
def lookupSpent : SpentMap → Str → List Int
  | [], _ => []
  | (k, v) :: r, key => if k = key then v else lookupSpent r key

/-- `m[key] = append(m[key], x)`. -/
def addSpent : SpentMap → Str → Int → SpentMap
  | [], key, x => [(key, [x])]
  | (k, v) :: r, key, x =>
    if k = key then (k, v ++ [x]) :: r else (k, v) :: addSpent r key x

/-- The input phase of `FindUnspentTransactions` for one transaction:
every input unlockable by `address` marks the referenced output spent. -/
def markInputs (address : Str) : SpentMap → List TXInput → SpentMap
  | m, [] => m
  | m, i :: r =>
    markInputs address
      (if i.CanUnlockOutputWith address then addSpent m i.Txid i.Vout else m) r

/-- The `Outputs:` loop of `FindUnspentTransactions` for one transaction:
each output that is not marked spent and is unlockable by `address`
appends the whole transaction to the result, once per such output. -/
def collectUnspent (address : Str) (spent : List Int) (tx : Transaction) :
    Nat → List TXOutput → List Transaction
  | _, [] => []
  | i, o :: r =>
    (if (Int.ofNat i) ∈ spent then []
     else if o.CanBeUnlockedWith address then [tx] else [])
      ++ collectUnspent address spent tx (i + 1) r

/-- One iteration of the transaction loop of `FindUnspentTransactions`:
inputs are recorded first (unless the transaction is coinbase), then the
outputs are inspected against the updated table. -/
def processTx (address : Str) (st : SpentMap × List Transaction)
    (tx : Transaction) : SpentMap × List Transaction :=
  let m := if tx.IsCoinbase then st.1 else markInputs address st.1 tx.Vin
  (m, st.2 ++ collectUnspent address (lookupSpent m tx.ID) tx 0 tx.Vout)

/-- The block loop of `FindUnspentTransactions`, over the block list
already reversed (the Go loop runs from the last index down to 0).  A
block with no transactions stops the scan, returning what was found. -/
def scanRev (address : Str) : SpentMap → List Transaction → List Block →
    List Transaction
  | _, acc, [] => acc
  | m, acc, b :: r =>
    if b.Transactions.isEmpty then acc
    else
      scanRev address (b.Transactions.foldl (processTx address) (m, acc)).1
        (b.Transactions.foldl (processTx address) (m, acc)).2 r

/-- `Blockchain.FindUnspentTransactions` from part_000. -/
def FindUnspentTransactions (bc : Blockchain) (address : Str) :
    List Transaction :=
  scanRev address [] [] bc.blocks.reverse

/-- `Blockchain.FindUTXO` from part_000: for each transaction returned
by `FindUnspentTransactions`, every output unlockable by `address` is
appended. -/
def FindUTXO (bc : Blockchain) (address : Str) : List TXOutput :=
  (FindUnspentTransactions bc address).foldl
    (fun acc tx => acc ++ tx.Vout.filter (·.CanBeUnlockedWith address)) []

/-- The balance computation of `handleGetBalance` from part_000:
the sum of the values of `FindUTXO`. -/
def GetBalance (bc : Blockchain) (address : Str) : Int :=
  (FindUTXO bc address).foldl (fun s o => s + o.Value) 0

/-- The inner output loop of `FindSpendableOutputs`.  The `Bool` flag
records whether the `accumulated >= amount` early return fired. -/
def spendOuts (address : Str) (amount : Int) (txid : Str) :
    Int → SpentMap → Nat → List TXOutput → Int × SpentMap × Bool
  | acc, m, _, [] => (acc, m, false)
  | acc, m, i, o :: r =>
    if o.CanBeUnlockedWith address ∧ acc < amount then
      let acc2 := acc + o.Value
      let m2 := addSpent m txid (Int.ofNat i)
      if amount ≤ acc2 then (acc2, m2, true)
      else spendOuts address amount txid acc2 m2 (i + 1) r
    else spendOuts address amount txid acc m (i + 1) r

/-- The outer transaction loop of `FindSpendableOutputs`. -/
def spendTxs (address : Str) (amount : Int) :
    Int → SpentMap → List Transaction → Int × SpentMap
  | acc, m, [] => (acc, m)
  | acc, m, tx :: r =>
    let s := spendOuts address amount tx.ID acc m 0 tx.Vout
    if s.2.2 then (s.1, s.2.1) else spendTxs address amount s.1 s.2.1 r

/-- `Blockchain.FindSpendableOutputs` from part_000. -/
def FindSpendableOutputs (bc : Blockchain) (address : Str) (amount : Int) :
    Int × SpentMap :=
  spendTxs address amount 0 [] (FindUnspentTransactions bc address)

/-- `NewUTXOTransaction` from transaction.go.  Iterating the Go map is
modelled by iterating the association list in insertion order (the set
of selected pairs is what all properties are about). -/
def NewUTXOTransaction (setID : Transaction → Str) (fromAddr toAddr : Str)
    (amount : Int) (bc : Blockchain) : Except Str Transaction :=
  let s := FindSpendableOutputs bc fromAddr amount
  if s.1 < amount then .error (strOf ("ERROR: Not enough funds"))
  else
    let inputs := s.2.flatMap fun p => p.2.map fun out => TXInput.mk p.1 out fromAddr
    let outputs := [TXOutput.mk amount toAddr]
      ++ (if amount < s.1 then [TXOutput.mk (s.1 - amount) fromAddr] else [])
    let tx : Transaction := ⟨[], inputs, outputs⟩
    .ok { tx with ID := setID tx }

/-! ### SHA-256 (`crypto/sha256`)

A byte-level embedding of SHA-256, on `List Nat` (bytes) with 32-bit
words as `Nat` reduced modulo `2^32`. -/

/-- The 64 SHA-256 round constants. -/
def shaK : List Nat := [
  1116352408, 1899447441, 3049323471, 3921009573, 961987163, 1508970993, 2453635748, 2870763221,
  3624381080, 310598401, 607225278, 1426881987, 1925078388, 2162078206, 2614888103, 3248222580,
  3835390401, 4022224774, 264347078, 604807628, 770255983, 1249150122, 1555081692, 1996064986,
  2554220882, 2821834349, 2952996808, 3210313671, 3336571891, 3584528711, 113926993, 338241895,
  666307205, 773529912, 1294757372, 1396182291, 1695183700, 1986661051, 2177026350, 2456956037,
  2730485921, 2820302411, 3259730800, 3345764771, 3516065817, 3600352804, 4094571909, 275423344,
  430227734, 506948616, 659060556, 883997877, 958139571, 1322822218, 1537002063, 1747873779,
  1955562222, 2024104815, 2227730452, 2361852424, 2428436474, 2756734187, 3204031479, 3329325298]

/-- The SHA-256 initial state. -/
def shaH0 : List Nat :=
  [1779033703, 3144134277, 1013904242, 2773480762, 1359893119, 2600822924, 528734635, 1541459225]

/-- Right rotation of a 32-bit word. -/
def rotr (n x : Nat) : Nat := ((x >>> n) ||| (x <<< (32 - n))) % 4294967296

/-- Bitwise complement of a 32-bit word. -/
def w32not (x : Nat) : Nat := x ^^^ 4294967295

/-- Message padding: append `0x80`, zeros to 56 mod 64, then the bit
length as 8 big-endian bytes. -/
def shaPad (msg : List Nat) : List Nat :=
  let L := msg.length
  let zeros := (120 - ((L + 1) % 64)) % 64
  let bits := 8 * L
  msg ++ [128] ++ List.replicate zeros 0 ++
    [bits >>> 56 % 256, bits >>> 48 % 256, bits >>> 40 % 256, bits >>> 32 % 256,
     bits >>> 24 % 256, bits >>> 16 % 256, bits >>> 8 % 256, bits % 256]

/-- Big-endian 4-byte groups to 32-bit words. -/
def bytesToWords : List Nat → List Nat
  | b0 :: b1 :: b2 :: b3 :: r => (((b0 * 256 + b1) * 256 + b2) * 256 + b3) :: bytesToWords r
  | _ => []

/-- One step of the message-schedule extension. -/
def schedNext (ws : List Nat) : Nat :=
  let w (k : Nat) : Nat := ws.getD (ws.length - k) 0
  let s0 := rotr 7 (w 15) ^^^ rotr 18 (w 15) ^^^ (w 15 >>> 3)
  let s1 := rotr 17 (w 2) ^^^ rotr 19 (w 2) ^^^ (w 2 >>> 10)
  (w 16 + s0 + w 7 + s1) % 4294967296

/-- Extend the schedule by `n` words. -/
def schedExtend : Nat → List Nat → List Nat
  | 0, ws => ws
  | n + 1, ws => schedExtend n (ws ++ [schedNext ws])

/-- The eight working variables of the compression function. -/
structure ShaState where
  a : Nat
  b : Nat
  c : Nat
  d : Nat
  e : Nat
  f : Nat
  g : Nat
  h : Nat

/-- One compression round. -/
def shaRound (s : ShaState) (kw : Nat × Nat) : ShaState :=
  let S1 := rotr 6 s.e ^^^ rotr 11 s.e ^^^ rotr 25 s.e
  let ch := (s.e &&& s.f) ^^^ (w32not s.e &&& s.g)
  let t1 := (s.h + S1 + ch + kw.1 + kw.2) % 4294967296
  let S0 := rotr 2 s.a ^^^ rotr 13 s.a ^^^ rotr 22 s.a
  let maj := (s.a &&& s.b) ^^^ (s.a &&& s.c) ^^^ (s.b &&& s.c)
  let t2 := (S0 + maj) % 4294967296
  ⟨(t1 + t2) % 4294967296, s.a, s.b, s.c, (s.d + t1) % 4294967296, s.e, s.f, s.g⟩

/-- Compress one 16-word block into the running state. -/
def shaCompress (hs : List Nat) (blockWords : List Nat) : List Nat :=
  let ws := schedExtend 48 blockWords
  let d (k : Nat) : Nat := hs.getD k 0
  let s0 : ShaState := ⟨d 0, d 1, d 2, d 3, d 4, d 5, d 6, d 7⟩
  let s := (shaK.zip ws).foldl shaRound s0
  [(d 0 + s.a) % 4294967296, (d 1 + s.b) % 4294967296, (d 2 + s.c) % 4294967296,
   (d 3 + s.d) % 4294967296, (d 4 + s.e) % 4294967296, (d 5 + s.f) % 4294967296,
   (d 6 + s.g) % 4294967296, (d 7 + s.h) % 4294967296]

/-- Process `n` blocks of 16 words each. -/
def shaBlocks : Nat → List Nat → List Nat → List Nat
  | 0, hs, _ => hs
  | n + 1, hs, ws => shaBlocks n (shaCompress hs (ws.take 16)) (ws.drop 16)

/-- A 32-bit word as 4 big-endian bytes. -/
def wordBytes (w : Nat) : List Nat := [w >>> 24 % 256, w >>> 16 % 256, w >>> 8 % 256, w % 256]

/-- SHA-256 of a byte list, as the 32 digest bytes. -/
def sha256 (msg : List Nat) : List Nat :=
  let ws := bytesToWords (shaPad msg)
  (shaBlocks (ws.length / 16) shaH0 ws).flatMap wordBytes

/-- `hex.EncodeToString`: lowercase hex of a byte list. -/
def hexEncode (l : List Nat) : Str :=
  l.flatMap fun b => [Nat.digitChar (b / 16), Nat.digitChar (b % 16)]

/-! ### Block hashing, proof of work, and the ledger (part_000)

Theorems that do not depend on the concrete value of the hash quantify
over the compression function `sha : List Nat → List Nat`; the program
instantiates it with `sha256`. -/

/-- `Block.HashTransactions` from part_000: the raw digest of the
concatenation of the transaction identifiers. -/
def HashTransactions (sha : List Nat → List Nat) (b : Block) : List Nat :=
  sha (strBytes (b.Transactions.flatMap (·.ID)))

/-- `calculateHash` from part_000: the hex digest of
`Timestamp + PrevHash + Nonce` followed by the transaction-set digest. -/
def calculateHash (sha : List Nat → List Nat) (b : Block) : Str :=
  hexEncode (sha (strBytes (b.Timestamp ++ b.PrevHash ++ b.Nonce) ++ HashTransactions sha b))

/-- The zero value `&Block{}` of Go. -/
def emptyBlock : Block := ⟨[], [], [], [], []⟩

/-- `NewGenesisBlock` from part_000: note that the stored `Hash` is
`calculateHash` of the zero-valued `genesisBlock`, not of the block
being returned; `ts` stands for `time.Now().String()`. -/
def NewGenesisBlock (sha : List Nat → List Nat) (setID : Transaction → Str)
    (ts : Str) : Block :=
  ⟨ts, [NewCoinbaseTX setID (strOf ("Ivan")) genesisCoinbaseData],
    calculateHash sha emptyBlock, [], []⟩

/-- `NewBlockchain` from part_000. -/
def NewBlockchain (sha : List Nat → List Nat) (setID : Transaction → Str)
    (ts : Str) : Blockchain :=
  ⟨[NewGenesisBlock sha setID ts]⟩

/-- `Blockchain.AddBlock` from part_000: lock, append, unlock. -/
def AddBlock (bc : Blockchain) (newBlock : Block) : Blockchain :=
  ⟨bc.blocks ++ [newBlock]⟩

/-- `isHashValid` from part_000. -/
def isHashValid (hash : Str) (d : Nat) : Bool :=
  (List.replicate d '0').isPrefixOf hash

/-- `isBlockValid` from part_000. -/
def isBlockValid (sha : List Nat → List Nat) (newBlock oldBlock : Block) : Bool :=
  if oldBlock.Hash ≠ newBlock.PrevHash then false
  else if calculateHash sha newBlock ≠ newBlock.Hash then false
  else true

/-- `fmt.Sprintf("%x", i)` for a natural number. -/
def hexFmt (i : Nat) : Str := Nat.toDigits 16 i

/-- The block assembled by `generateBlock` before the mining loop:
`Hash` and `Nonce` still hold their zero values. -/
def newBlockBase (ts : Str) (tx : Transaction) (oldHash : Str) : Block :=
  ⟨ts, [tx], [], oldHash, []⟩

/-- The candidate inspected at nonce counter `i`. -/
def withNonce (b : Block) (i : Nat) : Block := { b with Nonce := hexFmt i }

/-- The mining loop of `generateBlock`: try nonce counters upward from
`i` until the hash meets the difficulty.  The Go loop is unbounded, so
the embedding takes fuel and returns `none` when it runs out. -/
def powLoop (sha : List Nat → List Nat) (b : Block) : Nat → Nat → Option Block
  | _, 0 => none
  | i, fuel + 1 =>
    let nb := withNonce b i
    let newHash := calculateHash sha nb
    if isHashValid newHash difficulty then some { nb with Hash := newHash }
    else powLoop sha b (i + 1) fuel

/-- `generateBlock` from part_000; `ts` stands for `time.Now().String()`. -/
def generateBlock (sha : List Nat → List Nat) (setID : Transaction → Str)
    (fuel : Nat) (ts : Str) (bc : Blockchain) (oldBlock : Block)
    (m : SendMessage) : Option Block :=
  match NewUTXOTransaction setID m.From m.To m.Value bc with
  | .error _ => none
  | .ok tx => powLoop sha (newBlockBase ts tx oldBlock.Hash) 0 fuel

/-- The ledger-mutating core of `handleWriteBlock` from part_000:
generate a block from the current tail, validate it against the tail,
and append it only when the check passes; on a generation error the
handler returns without touching the chain. -/
def handleWriteBlock (sha : List Nat → List Nat) (setID : Transaction → Str)
    (fuel : Nat) (ts : Str) (bc : Blockchain) (m : SendMessage) : Blockchain :=
  match bc.blocks.getLast? with
  | none => bc
  | some tail =>
    match generateBlock sha setID fuel ts bc tail m with
    | none => bc
    | some newBlock =>
      if isBlockValid sha newBlock tail then AddBlock bc newBlock else bc

/-- The chains reachable from the initial ledger by the program's write
path: start from `NewBlockchain` and repeatedly run the write handler
(with arbitrary request payloads, timestamps and mining fuel). -/
inductive Reachable (sha : List Nat → List Nat) (setID : Transaction → Str) :
    Blockchain → Prop where
  | genesis (ts : Str) : Reachable sha setID (NewBlockchain sha setID ts)
  | write {bc : Blockchain} (m : SendMessage) (ts : Str) (fuel : Nat) :
      Reachable sha setID bc →
      Reachable sha setID (handleWriteBlock sha setID fuel ts bc m)

/-- The hash-chain invariant of the spec: every block links to its
predecessor's stored hash, and its stored hash recomputes from its own
stored fields. -/
def chainLinked (sha : List Nat → List Nat) (bc : Blockchain) : Prop :=
  ∀ i a b, bc.blocks[i]? = some a → bc.blocks[i + 1]? = some b →
    b.PrevHash = a.Hash ∧ calculateHash sha b = b.Hash

/-! ### Spec-level view of the UTXO scan

These definitions follow the specification's words, to be compared with
the code-level `FindUnspentTransactions`/`FindUTXO`/`GetBalance`: the
scanned portion of the chain, the set of (txid, index) pairs referenced
by address-unlocked inputs in it, and the once-per-output sum of the
unspent outputs locked to the address. -/

/-- The transactions of the scanned portion of the chain, in scan order
(newest block first, transactions of a block in order); the scan stops
at the first block with no transactions. -/
def scannedTxs (bc : Blockchain) : List Transaction :=
  (bc.blocks.reverse.takeWhile fun b => !b.Transactions.isEmpty).flatMap (·.Transactions)

/-- The (txid, index) pairs referenced by the inputs of an input list
that are unlockable by `address`. -/
def inputMarks (address : Str) (ins : List TXInput) : List (Str × Int) :=
  (ins.filter (·.CanUnlockOutputWith address)).map fun i => (i.Txid, i.Vout)

/-- The spent marks contributed by one transaction: one (txid, index)
pair per input whose unlocking token equals `address`; a coinbase
transaction carries no real input and contributes none. -/
def txMarks (address : Str) (tx : Transaction) : List (Str × Int) :=
  if tx.IsCoinbase then [] else inputMarks address tx.Vin

/-- All spent marks of a transaction list. -/
def marksList (address : Str) (ts : List Transaction) : List (Str × Int) :=
  ts.flatMap (txMarks address)

/-- The indices marked spent for a given owning-transaction id. -/
def pairsAt (pairs : List (Str × Int)) (key : Str) : List Int :=
  (pairs.filter fun p => p.1 == key).map (·.2)

/-- Count of the outputs of one transaction (indexed from `i`) that are
locked to `address` and not in the given spent-index list. -/
def qualCount (address : Str) (spent : List Int) : Nat → List TXOutput → Nat
  | _, [] => 0
  | i, o :: r =>
    (if (Int.ofNat i) ∈ spent then 0
     else if o.CanBeUnlockedWith address then 1 else 0) + qualCount address spent (i + 1) r

/-- Value sum of the outputs of one transaction (indexed from `i`) that
are locked to `address` and not in the given spent-index list. -/
def qualSum (address : Str) (spent : List Int) : Nat → List TXOutput → Int
  | _, [] => 0
  | i, o :: r =>
    (if (Int.ofNat i) ∈ spent then 0
     else if o.CanBeUnlockedWith address then o.Value else 0) + qualSum address spent (i + 1) r

/-- Per the spec's words: how many outputs of `tx` are unspent and
locked to `address`, judged against the marks of the whole scanned
portion `L`. -/
def specUnspentCount (address : Str) (L : List Transaction) (tx : Transaction) : Nat :=
  qualCount address (pairsAt (marksList address L) tx.ID) 0 tx.Vout

/-- Per the spec's words: the balance as the sum, over the scanned
transactions, of the values of exactly the unspent outputs locked to
`address`, each counted once. -/
def specBalance (address : Str) (bc : Blockchain) : Int :=
  ((scannedTxs bc).map fun tx =>
    qualSum address (pairsAt (marksList address (scannedTxs bc)) tx.ID) 0 tx.Vout).sum

/-- Value sum of all outputs of `tx` locked to `address` (spent or not),
which is what one occurrence of `tx` in `FindUnspentTransactions`
contributes to the balance. -/
def addressedSum (address : Str) (tx : Transaction) : Int :=
  ((tx.Vout.filter (·.CanBeUnlockedWith address)).map (·.Value)).sum

/-- Hypothesis under which the stateful scan agrees with the global
spent relation: no address-unlocked input of a non-coinbase transaction
refers to the id of a transaction occurring *later* in scan order
(i.e. spends happen in strictly newer blocks than the spent output). -/
abbrev noLateRef (address : Str) (L : List Transaction) : Prop :=
  List.Pairwise (fun t u => u.IsCoinbase = false →
    ∀ inp ∈ u.Vin, inp.CanUnlockOutputWith address = true → inp.Txid ≠ t.ID) L

/-- The spent table `m` faithfully represents the marks of the already
scanned transactions `pre` (membership-wise; only membership is ever
observed). -/
def invMap (address : Str) (m : SpentMap) (pre : List Transaction) : Prop :=
  ∀ k v, v ∈ lookupSpent m k ↔ (k, v) ∈ marksList address pre

/-! ### Concrete instances for witnesses and counterexamples -/

/-- A degenerate compression function used to instantiate hash-generic
theorems on concrete inputs. -/
def sha0 : List Nat → List Nat := fun _ => [0]

/-- A degenerate transaction-identifier fingerprint used to instantiate
`setID`-generic theorems on concrete inputs. -/
def setID0 : Transaction → Str := fun _ => []

def ivanS : Str := strOf ("Ivan")

def bobS : Str := strOf ("Bob")

/-- The initial ledger under the degenerate hash functions. -/
def bc9 : Blockchain := NewBlockchain sha0 setID0 []

/-- Its genesis block. -/
def g0 : Block := NewGenesisBlock sha0 setID0 []

/-- A transfer request of amount 0. -/
def m0 : SendMessage := ⟨ivanS, bobS, 0⟩

/-- The transaction built for `m0` on `bc9`. -/
def tx10 : Transaction := ⟨[], [], [⟨0, bobS⟩]⟩

/-- The block mined for `m0` on `bc9` under `sha0`. -/
def B3 : Block := ⟨[], [tx10], ['0', '0'], ['0', '0'], ['0']⟩

/-- The transaction built for a transfer of 5 from Ivan to Bob on `bc9`. -/
def tx8 : Transaction := ⟨[], [⟨[], 0, ivanS⟩], [⟨5, bobS⟩, ⟨5, ivanS⟩]⟩

/-- A block whose stored hash does not recompute (tampered). -/
def wBlock : Block := { emptyBlock with Hash := strOf ("x") }

/-- A candidate whose `PrevHash` does not match the tail. -/
def c7bad : Block := { emptyBlock with PrevHash := strOf ("zz") }

/-- A one-block chain. -/
def c7chain : Blockchain := ⟨[emptyBlock]⟩

/-- A transaction with two unspent outputs locked to the same address:
the input that exhibits the double counting of `FindUTXO`. -/
def t4 : Transaction := ⟨strOf ("t1"), [], [⟨5, strOf ("A")⟩, ⟨7, strOf ("A")⟩]⟩

/-- A one-block chain containing `t4`. -/
def bc4 : Blockchain := ⟨[⟨[], [t4], [], [], []⟩]⟩

/-! ## Theorems -/

/-- Unfolding characterisation of `isBlockValid`. -/
theorem isBlockValid_true_iff (sha : List Nat → List Nat) (nb ob : Block) :
    isBlockValid sha nb ob = true ↔
      ob.Hash = nb.PrevHash ∧ calculateHash sha nb = nb.Hash := by
  unfold isBlockValid
  by_cases h1 : ob.Hash = nb.PrevHash <;>
    by_cases h2 : calculateHash sha nb = nb.Hash <;> simp [h1, h2]

/-- C2: `isBlockValid` returns true exactly when the predecessor's
stored hash matches the candidate's `PrevHash` and the candidate's
recomputed fingerprint equals its stored `Hash`; in particular any
block whose recomputed hash differs from its stored hash is rejected
against every predecessor. -/
theorem c2_isBlockValid_iff (sha : List Nat → List Nat) (nb ob : Block) :
    (isBlockValid sha nb ob = true ↔
      ob.Hash = nb.PrevHash ∧ calculateHash sha nb = nb.Hash) ∧
    (calculateHash sha nb ≠ nb.Hash → isBlockValid sha nb ob = false) := by
  refine ⟨isBlockValid_true_iff sha nb ob, fun hne => ?_⟩
  cases hv : isBlockValid sha nb ob with
  | false => rfl
  | true => exact absurd ((isBlockValid_true_iff sha nb ob).mp hv).2 hne

set_option maxRecDepth 10000 in
/-- Witness for C2: a concrete tampered block (stored hash "x") is
rejected by `isBlockValid` under the program's real hash. -/
theorem c2_witness : isBlockValid sha256 wBlock emptyBlock = false :=
  (c2_isBlockValid_iff sha256 wBlock emptyBlock).2 (by decide)

/-- Counterexample for C7: `AddBlock` itself performs no validation:
a candidate that fails `isBlockValid` against the tail is nevertheless
appended to the sequence. -/
theorem c7_counterexample :
    isBlockValid sha256 c7bad emptyBlock = false ∧
    (AddBlock c7chain c7bad).blocks = [emptyBlock, c7bad] := by
  exact ⟨by decide, rfl⟩

/-- C7 as amended: `AddBlock` unconditionally appends under the lock;
the validation against the current last block is performed by the
caller (`handleWriteBlock`) before invoking `AddBlock`, so on the write
path a block is appended only when `isBlockValid` passes, and an
invalid block leaves the sequence unchanged with no error surfaced. -/
theorem c7_amended :
    (∀ bc b, (AddBlock bc b).blocks = bc.blocks ++ [b]) ∧
    (∀ sha setID fuel ts bc m,
      (handleWriteBlock sha setID fuel ts bc m).blocks = bc.blocks ∨
      ∃ tail nb, bc.blocks.getLast? = some tail ∧
        generateBlock sha setID fuel ts bc tail m = some nb ∧
        isBlockValid sha nb tail = true ∧
        (handleWriteBlock sha setID fuel ts bc m).blocks = bc.blocks ++ [nb]) := by
  refine ⟨fun bc b => rfl, fun sha setID fuel ts bc m => ?_⟩
  cases hl : bc.blocks.getLast? with
  | none => left; unfold handleWriteBlock; rw [hl]
  | some tail =>
    have hred : handleWriteBlock sha setID fuel ts bc m =
        (match generateBlock sha setID fuel ts bc tail m with
          | none => bc
          | some newBlock =>
            if isBlockValid sha newBlock tail then AddBlock bc newBlock else bc) := by
      unfold handleWriteBlock
      rw [hl]
    cases hg : generateBlock sha setID fuel ts bc tail m with
    | none => left; rw [hred, hg]
    | some nb =>
      by_cases hv : isBlockValid sha nb tail = true
      · refine Or.inr ⟨tail, nb, rfl, hg, hv, ?_⟩
        rw [hred, hg]
        show (if isBlockValid sha nb tail = true then AddBlock bc nb else bc).blocks
          = bc.blocks ++ [nb]
        rw [if_pos hv]
        rfl
      · left
        rw [hred, hg]
        show (if isBlockValid sha nb tail = true then AddBlock bc nb else bc).blocks
          = bc.blocks
        rw [if_neg hv]

/-- When the accumulator already reaches the requested amount (in
particular when `amount ≤ 0`), the output loop of
`FindSpendableOutputs` selects nothing. -/
theorem spendOuts_ge (a : Str) (amount : Int) (txid : Str) :
    ∀ outs i acc m, ¬ acc < amount →
      spendOuts a amount txid acc m i outs = (acc, m, false) := by
  intro outs
  induction outs with
  | nil => intro i acc m h; rfl
  | cons o r ih =>
    intro i acc m h
    unfold spendOuts
    rw [if_neg (by tauto)]
    exact ih (i + 1) acc m h

/-- When the accumulator already reaches the requested amount, the
transaction loop of `FindSpendableOutputs` selects nothing. -/
theorem spendTxs_ge (a : Str) (amount : Int) :
    ∀ txs acc m, ¬ acc < amount → spendTxs a amount acc m txs = (acc, m) := by
  intro txs
  induction txs with
  | nil => intro acc m h; rfl
  | cons t r ih =>
    intro acc m h
    unfold spendTxs
    rw [spendOuts_ge a amount t.ID t.Vout 0 acc m h]
    exact ih acc m h

/-- C10: with amount 0, `FindSpendableOutputs` returns accumulated 0
and an empty selection on every ledger, and `NewUTXOTransaction`
succeeds with no inputs and exactly one zero-valued output locked to
the recipient; the result is not a coinbase transaction. -/
theorem c10_zero_amount (setID : Transaction → Str) (bc : Blockchain)
    (fromAddr toAddr : Str) :
    FindSpendableOutputs bc fromAddr 0 = (0, []) ∧
    NewUTXOTransaction setID fromAddr toAddr 0 bc =
      .ok { ID := setID ⟨[], [], [⟨0, toAddr⟩]⟩, Vin := [], Vout := [⟨0, toAddr⟩] } ∧
    Transaction.IsCoinbase
      { ID := setID ⟨[], [], [⟨0, toAddr⟩]⟩, Vin := [], Vout := [⟨0, toAddr⟩] } = false := by
  have h1 : FindSpendableOutputs bc fromAddr 0 = (0, []) :=
    spendTxs_ge fromAddr 0 _ 0 [] (lt_irrefl 0)
  refine ⟨h1, ?_, rfl⟩
  unfold NewUTXOTransaction
  rw [h1]
  simp

/-- C5: `NewUTXOTransaction` fails exactly when the accumulated value
found by `FindSpendableOutputs` is strictly below the requested amount,
and in that case the write handler leaves the block sequence unchanged. -/
theorem c5_insufficient_funds (setID : Transaction → Str) (bc : Blockchain)
    (fromAddr toAddr : Str) (amount : Int) :
    ((∃ e, NewUTXOTransaction setID fromAddr toAddr amount bc = .error e) ↔
      (FindSpendableOutputs bc fromAddr amount).1 < amount) ∧
    (∀ sha fuel ts, (FindSpendableOutputs bc fromAddr amount).1 < amount →
      (handleWriteBlock sha setID fuel ts bc ⟨fromAddr, toAddr, amount⟩).blocks
        = bc.blocks) := by
  constructor
  · by_cases h : (FindSpendableOutputs bc fromAddr amount).1 < amount
    · exact ⟨fun _ => h, fun _ => ⟨_, by unfold NewUTXOTransaction; rw [if_pos h]⟩⟩
    · refine ⟨fun ⟨e, he⟩ => ?_, fun hc => absurd hc h⟩
      unfold NewUTXOTransaction at he
      rw [if_neg h] at he
      exact absurd he (by simp)
  · intro sha fuel ts h
    have hg : ∀ tail, generateBlock sha setID fuel ts bc tail ⟨fromAddr, toAddr, amount⟩ = none := by
      intro tail
      unfold generateBlock
      have : NewUTXOTransaction setID fromAddr toAddr amount bc =
          .error (strOf ("ERROR: Not enough funds")) := by
        unfold NewUTXOTransaction; rw [if_pos h]
      simp only [this]
    cases hl : bc.blocks.getLast? with
    | none => unfold handleWriteBlock; rw [hl]
    | some tail =>
      have hred : handleWriteBlock sha setID fuel ts bc ⟨fromAddr, toAddr, amount⟩ =
          (match generateBlock sha setID fuel ts bc tail ⟨fromAddr, toAddr, amount⟩ with
            | none => bc
            | some newBlock =>
              if isBlockValid sha newBlock tail then AddBlock bc newBlock else bc) := by
        unfold handleWriteBlock
        rw [hl]
      rw [hred, hg tail]

/-- Witness for C5: on the initial ledger (degenerate hash), a request
for 100 from the genesis recipient finds only 10 spendable, errors, and
leaves the chain unchanged. -/
theorem c5_witness :
    (∃ e, NewUTXOTransaction setID0 ivanS bobS 100 bc9 = .error e) ∧
    (handleWriteBlock sha0 setID0 1 [] bc9 ⟨ivanS, bobS, 100⟩).blocks = bc9.blocks :=
  ⟨(c5_insufficient_funds setID0 bc9 ivanS bobS 100).1.mpr (by decide),
    (c5_insufficient_funds setID0 bc9 ivanS bobS 100).2 sha0 1 [] (by decide)⟩

/-- Counterexample for C9: the write interface accepts a negative
amount, and `NewUTXOTransaction` then succeeds and emits an output with
a negative value (and mints positive change from nothing). -/
theorem c9_counterexample :
    NewUTXOTransaction setID0 ivanS bobS (-1) bc9 =
      .ok ⟨[], [], [⟨-1, bobS⟩, ⟨1, ivanS⟩]⟩ ∧ (-1 : Int) < 0 :=
  ⟨rfl, by decide⟩

/-- C9 as amended: every output of `NewCoinbaseTX` has non-negative
value, and every output of a successful `NewUTXOTransaction` has
non-negative value provided the requested amount is non-negative. -/
theorem c9_amended :
    (∀ setID toAddr data o, o ∈ (NewCoinbaseTX setID toAddr data).Vout → 0 ≤ o.Value) ∧
    (∀ setID bc fromAddr toAddr amount tx o, 0 ≤ amount →
      NewUTXOTransaction setID fromAddr toAddr amount bc = .ok tx →
      o ∈ tx.Vout → 0 ≤ o.Value) := by
  constructor
  · intro setID toAddr data o ho
    have : o = ⟨subsidy, toAddr⟩ := by
      simpa [NewCoinbaseTX] using ho
    rw [this]
    show (0 : Int) ≤ subsidy
    decide
  · intro setID bc fromAddr toAddr amount tx o hamt htx ho
    unfold NewUTXOTransaction at htx
    by_cases h : (FindSpendableOutputs bc fromAddr amount).1 < amount
    · rw [if_pos h] at htx
      exact absurd htx (by simp)
    · rw [if_neg h] at htx
      simp only [Except.ok.injEq] at htx
      subst htx
      simp only [List.mem_append, List.mem_singleton] at ho
      rcases ho with h1 | h2
      · rw [h1]
        exact hamt
      · by_cases hc : amount < (FindSpendableOutputs bc fromAddr amount).1
        · rw [if_pos hc] at h2
          simp only [List.mem_singleton] at h2
          rw [h2]
          simpa using le_of_lt hc
        · rw [if_neg hc] at h2
          simp at h2

/-- Witness for C9 (amended): concrete transfer of 5 from Ivan to Bob
on the initial ledger; the recipient's output is non-negative. -/
theorem c9_witness : 0 ≤ (TXOutput.mk 5 bobS).Value :=
  c9_amended.2 setID0 bc9 ivanS bobS 5 tx8 ⟨5, bobS⟩ (by decide) rfl (by decide)

/-- C8: when `NewUTXOTransaction` succeeds, its inputs are exactly one
per selected (txid, output index) entry of `FindSpendableOutputs`, each
unlockable by the sender; its outputs are one of `amount` to the
recipient plus, exactly when the accumulated value exceeds `amount`,
one change output returning the excess to the sender; and its identifier
fingerprint is computed from the assembled transaction and set. -/
theorem c8_transfer_shape (setID : Transaction → Str) (bc : Blockchain)
    (fromAddr toAddr : Str) (amount : Int) (tx : Transaction)
    (h : NewUTXOTransaction setID fromAddr toAddr amount bc = .ok tx) :
    tx.Vin = (FindSpendableOutputs bc fromAddr amount).2.flatMap
      (fun p => p.2.map fun out => TXInput.mk p.1 out fromAddr) ∧
    (∀ inp ∈ tx.Vin, inp.ScriptSig = fromAddr) ∧
    tx.Vout = TXOutput.mk amount toAddr ::
      (if amount < (FindSpendableOutputs bc fromAddr amount).1 then
        [TXOutput.mk ((FindSpendableOutputs bc fromAddr amount).1 - amount) fromAddr]
      else []) ∧
    tx.ID = setID ⟨[], tx.Vin, tx.Vout⟩ := by
  unfold NewUTXOTransaction at h
  by_cases hlt : (FindSpendableOutputs bc fromAddr amount).1 < amount
  · rw [if_pos hlt] at h
    exact absurd h (by simp)
  · rw [if_neg hlt] at h
    simp only [Except.ok.injEq] at h
    subst h
    refine ⟨rfl, ?_, by simp, rfl⟩
    intro inp hinp
    simp only [List.mem_flatMap, List.mem_map] at hinp
    obtain ⟨p, _, out, _, rfl⟩ := hinp
    rfl

/-- Witness for C8: the transfer of 5 from Ivan to Bob on the initial
ledger selects output 0 of the genesis coinbase and builds the single
matching input. -/
theorem c8_witness :
    tx8.Vin = (FindSpendableOutputs bc9 ivanS 5).2.flatMap
      (fun p => p.2.map fun out => TXInput.mk p.1 out ivanS) :=
  (c8_transfer_shape setID0 bc9 ivanS bobS 5 tx8 rfl).1

/-- `isHashValid` states that the hex digest begins with (at least)
`d` zero characters. -/
theorem isHashValid_take (s : Str) (d : Nat) :
    isHashValid s d = true ↔ s.take d = List.replicate d '0' := by
  unfold isHashValid
  induction d generalizing s with
  | zero => simp [List.isPrefixOf]
  | succ k ih =>
    rw [List.replicate_succ]
    cases s with
    | nil => simp [List.isPrefixOf]
    | cons c s2 =>
      simp only [List.isPrefixOf, List.take_succ_cons, Bool.and_eq_true,
        beq_iff_eq, List.cons.injEq, ih s2]
      constructor
      · rintro ⟨h1, h2⟩
        exact ⟨h1.symm, h2⟩
      · rintro ⟨h1, h2⟩
        exact ⟨h1.symm, h2⟩

/-- `calculateHash` does not read the stored `Hash` field. -/
theorem calculateHash_setHash (sha : List Nat → List Nat) (b : Block) (x : Str) :
    calculateHash sha { b with Hash := x } = calculateHash sha b := rfl

/-- The mining loop, when it returns, returns the block at the first
satisfying nonce counter at or after its starting counter. -/
theorem powLoop_spec (sha : List Nat → List Nat) (b : Block) :
    ∀ fuel i r, powLoop sha b i fuel = some r →
      ∃ m, i ≤ m ∧
        r = { withNonce b m with Hash := calculateHash sha (withNonce b m) } ∧
        isHashValid (calculateHash sha (withNonce b m)) difficulty = true ∧
        ∀ j, i ≤ j → j < m →
          isHashValid (calculateHash sha (withNonce b j)) difficulty = false := by
  intro fuel
  induction fuel with
  | zero => intro i r h; exact absurd h (by simp [powLoop])
  | succ f ih =>
    intro i r h
    unfold powLoop at h
    by_cases hv : isHashValid (calculateHash sha (withNonce b i)) difficulty = true
    · rw [if_pos hv] at h
      refine ⟨i, le_refl i, (Option.some.injEq _ _).mp h.symm, hv, ?_⟩
      intro j h1 h2
      omega
    · rw [if_neg hv] at h
      obtain ⟨m, hm1, hm2, hm3, hm4⟩ := ih (i + 1) r h
      refine ⟨m, by omega, hm2, hm3, ?_⟩
      intro j h1 h2
      by_cases hj : j = i
      · rw [hj]
        exact Bool.not_eq_true _ ▸ hv
      · exact hm4 j (by omega) h2

/-- C3: whenever `generateBlock` returns a block, the block's stored
hash recomputes from its stored fields, begins with `difficulty` zero
characters, and its nonce is the hexadecimal formatting of the least
counter whose recomputed hash passes the difficulty test (counters are
tried from 0 upward and the first satisfying one is kept). -/
theorem c3_generateBlock_pow (sha : List Nat → List Nat)
    (setID : Transaction → Str) (fuel : Nat) (ts : Str) (bc : Blockchain)
    (oldBlock : Block) (m : SendMessage) (b : Block)
    (h : generateBlock sha setID fuel ts bc oldBlock m = some b) :
    ∃ tx, NewUTXOTransaction setID m.From m.To m.Value bc = .ok tx ∧
    ∃ i, b = { withNonce (newBlockBase ts tx oldBlock.Hash) i with
          Hash := calculateHash sha (withNonce (newBlockBase ts tx oldBlock.Hash) i) } ∧
      calculateHash sha b = b.Hash ∧
      b.Hash.take difficulty = List.replicate difficulty '0' ∧
      b.Nonce = hexFmt i ∧
      isHashValid (calculateHash sha (withNonce (newBlockBase ts tx oldBlock.Hash) i))
        difficulty = true ∧
      ∀ j < i, isHashValid
        (calculateHash sha (withNonce (newBlockBase ts tx oldBlock.Hash) j))
        difficulty = false := by
  unfold generateBlock at h
  cases htx : NewUTXOTransaction setID m.From m.To m.Value bc with
  | error e => rw [htx] at h; exact absurd h (by simp)
  | ok tx =>
    rw [htx] at h
    obtain ⟨i, _, hr, hvalid, hmin⟩ := powLoop_spec sha _ fuel 0 b h
    refine ⟨tx, rfl, i, hr, ?_, ?_, ?_, hvalid, fun j hj => hmin j (Nat.zero_le j) hj⟩
    · rw [hr, calculateHash_setHash]
    · rw [hr]
      exact (isHashValid_take _ _).mp hvalid
    · rw [hr]
      rfl

/-- Witness for C3: mining the amount-0 transfer on the initial ledger
under the degenerate hash returns the concrete block `B3`, whose nonce
is the hex formatting of the least (here: the zeroth) counter. -/
theorem c3_witness :
    ∃ tx, NewUTXOTransaction setID0 m0.From m0.To m0.Value bc9 = .ok tx ∧
    ∃ i, B3 = { withNonce (newBlockBase [] tx g0.Hash) i with
          Hash := calculateHash sha0 (withNonce (newBlockBase [] tx g0.Hash) i) } ∧
      calculateHash sha0 B3 = B3.Hash ∧
      B3.Hash.take difficulty = List.replicate difficulty '0' ∧
      B3.Nonce = hexFmt i ∧
      isHashValid (calculateHash sha0 (withNonce (newBlockBase [] tx g0.Hash) i))
        difficulty = true ∧
      ∀ j < i, isHashValid
        (calculateHash sha0 (withNonce (newBlockBase [] tx g0.Hash) j))
        difficulty = false :=
  c3_generateBlock_pow sha0 setID0 1 [] bc9 g0 m0 B3 (by decide)

/-- Appending a block that passes `isBlockValid` against the stored
last block preserves the hash-chain invariant. -/
theorem chainLinked_append (sha : List Nat → List Nat) (bc : Blockchain)
    (tail nb : Block) (hl : bc.blocks.getLast? = some tail)
    (hv : isBlockValid sha nb tail = true) (hc : chainLinked sha bc) :
    chainLinked sha (AddBlock bc nb) := by
  intro i a b ha hb
  have hadd : (AddBlock bc nb).blocks = bc.blocks ++ [nb] := rfl
  rw [hadd] at ha hb
  rcases lt_trichotomy (i + 1) bc.blocks.length with h1 | h1 | h1
  · rw [List.getElem?_append_left (by omega)] at ha
    rw [List.getElem?_append_left h1] at hb
    exact hc i a b ha hb
  · rw [h1, List.getElem?_concat_length] at hb
    rw [List.getElem?_append_left (by omega)] at ha
    have hi : i = bc.blocks.length - 1 := by omega
    rw [List.getLast?_eq_getElem?, ← hi, ha] at hl
    have hb2 : b = nb := by injection hb.symm
    have ha2 : a = tail := by injection hl
    obtain ⟨hvp, hvh⟩ := (isBlockValid_true_iff sha nb tail).mp hv
    subst hb2
    subst ha2
    exact ⟨hvp.symm, hvh⟩
  · have hlen : (bc.blocks ++ [nb]).length ≤ i + 1 := by
      simp only [List.length_append]
      simp
      omega
    rw [List.getElem?_eq_none hlen] at hb
    exact absurd hb (by simp)

/-- C1: every chain reachable from the initial ledger by the program's
write path satisfies the hash-chain invariant: each later block's
`PrevHash` equals its predecessor's stored `Hash`, and each later
block's stored `Hash` recomputes from its stored fields. -/
theorem c1_write_path_invariant (sha : List Nat → List Nat)
    (setID : Transaction → Str) (bc : Blockchain)
    (h : Reachable sha setID bc) : chainLinked sha bc := by
  induction h with
  | genesis ts =>
    intro i a b ha hb
    rw [List.getElem?_eq_none (by simp [NewBlockchain])] at hb
    exact absurd hb (by simp)
  | write m ts fuel hr ih =>
    rename_i bc2
    cases hl : bc2.blocks.getLast? with
    | none =>
      have he : handleWriteBlock sha setID fuel ts bc2 m = bc2 := by
        unfold handleWriteBlock; rw [hl]
      rw [he]
      exact ih
    | some tail =>
      have hred : handleWriteBlock sha setID fuel ts bc2 m =
          (match generateBlock sha setID fuel ts bc2 tail m with
            | none => bc2
            | some newBlock =>
              if isBlockValid sha newBlock tail then AddBlock bc2 newBlock else bc2) := by
        unfold handleWriteBlock
        rw [hl]
      cases hg : generateBlock sha setID fuel ts bc2 tail m with
      | none =>
        rw [hred, hg]
        exact ih
      | some nb =>
        rw [hred, hg]
        show chainLinked sha
          (if isBlockValid sha nb tail = true then AddBlock bc2 nb else bc2)
        by_cases hv : isBlockValid sha nb tail = true
        · rw [if_pos hv]
          exact chainLinked_append sha bc2 tail nb hl hv ih
        · rw [if_neg hv]
          exact ih

/-- Witness for C1: the concrete two-block chain obtained by one write
of the amount-0 transfer on the initial ledger (degenerate hash)
satisfies the invariant. -/
theorem c1_witness : chainLinked sha0 (handleWriteBlock sha0 setID0 1 [] bc9 m0) :=
  c1_write_path_invariant sha0 setID0 _
    (Reachable.write m0 [] 1 (Reachable.genesis []))

set_option maxRecDepth 10000 in
/-- The stored genesis hash — `calculateHash` of the zero-valued empty
block, which evaluates to the constant `5df6e0e2…` — does not begin
with `difficulty` zero characters. -/
theorem genesisHash_ne_zeros :
    (calculateHash sha256 emptyBlock).take difficulty
      ≠ List.replicate difficulty '0' := by decide

/-- Counterexample for C6: under the program's real hash, the genesis
block's stored hash (the hash of the zero-valued empty block) does not
begin with `difficulty` zero characters, so the genesis block is not
sealed at the configured difficulty. -/
theorem c6_counterexample :
    (NewGenesisBlock sha256 setID0 []).Hash.take difficulty
      ≠ List.replicate difficulty '0' := genesisHash_ne_zeros

set_option maxRecDepth 10000 in
/-- At a nonempty timestamp (here `"x"`; `time.Now().String()` is always
nonempty) the genesis block's stored hash differs from the hash
recomputed from its own stored fields, since the stored hash is that of
the zero-valued empty block. -/
theorem genesisHash_not_recomputed :
    calculateHash sha256 (NewGenesisBlock sha256 setID0 (strOf ("x")))
      ≠ (NewGenesisBlock sha256 setID0 (strOf ("x"))).Hash := by decide

/-- C6 as amended: the genesis block contains the fixed coinbase
transaction and an empty predecessor hash, but it is not sealed by
proof of work: its nonce is empty and its stored hash is
`calculateHash` of the zero-valued empty block — a constant independent
of the genesis block's own timestamp and transactions — which does not
begin with `difficulty` zero characters; and at a nonempty timestamp
(as `time.Now().String()` always is; here `"x"`, with the identifier
fingerprint abstracted as empty) the stored hash does not recompute
from the genesis block's own stored fields. -/
theorem c6_amended (setID : Transaction → Str) (ts : Str) :
    (NewGenesisBlock sha256 setID ts).PrevHash = [] ∧
    (NewGenesisBlock sha256 setID ts).Nonce = [] ∧
    (NewGenesisBlock sha256 setID ts).Transactions =
      [NewCoinbaseTX setID (strOf ("Ivan")) genesisCoinbaseData] ∧
    (NewGenesisBlock sha256 setID ts).Hash = calculateHash sha256 emptyBlock ∧
    (NewGenesisBlock sha256 setID ts).Hash.take difficulty
      ≠ List.replicate difficulty '0' ∧
    calculateHash sha256 (NewGenesisBlock sha256 setID0 (strOf ("x")))
      ≠ (NewGenesisBlock sha256 setID0 (strOf ("x"))).Hash :=
  ⟨rfl, rfl, rfl, rfl, genesisHash_ne_zeros, genesisHash_not_recomputed⟩

/-- Lookup after `addSpent`: only the updated key changes, gaining the
appended index. -/
theorem lookupSpent_addSpent (m : SpentMap) (key : Str) (x : Int) (k : Str) :
    lookupSpent (addSpent m key x) k =
      if key = k then lookupSpent m k ++ [x] else lookupSpent m k := by
  induction m with
  | nil => by_cases h : key = k <;> simp [addSpent, lookupSpent, h]
  | cons p r ih =>
    obtain ⟨k2, v⟩ := p
    by_cases h2 : k2 = key
    · subst h2
      by_cases hk : k2 = k
      · subst hk
        simp [addSpent, lookupSpent]
      · simp [addSpent, lookupSpent, hk]
    · by_cases hk : k2 = k
      · subst hk
        have h3 : ¬ key = k2 := fun he => h2 he.symm
        simp [addSpent, lookupSpent, h2, h3]
      · simp [addSpent, lookupSpent, h2, hk, ih]

/-- Membership in the table after the input phase of one transaction. -/
theorem mem_lookupSpent_markInputs (a : Str) :
    ∀ (ins : List TXInput) (m : SpentMap) (k : Str) (v : Int),
      v ∈ lookupSpent (markInputs a m ins) k ↔
        v ∈ lookupSpent m k ∨ (k, v) ∈ inputMarks a ins := by
  intro ins
  induction ins with
  | nil => intro m k v; simp [markInputs, inputMarks]
  | cons i r ih =>
    intro m k v
    unfold markInputs
    by_cases hc : i.CanUnlockOutputWith a
    · rw [if_pos hc, ih, lookupSpent_addSpent]
      have hm : inputMarks a (i :: r) = (i.Txid, i.Vout) :: inputMarks a r := by
        simp [inputMarks, hc]
      rw [hm]
      by_cases hk : i.Txid = k
      · rw [if_pos hk]
        subst hk
        simp only [List.mem_append, List.mem_singleton, List.mem_cons,
          Prod.mk.injEq, eq_self_iff_true, true_and]
        tauto
      · have hk2 : ¬ k = i.Txid := fun h => hk h.symm
        simp only [if_neg hk, List.mem_cons, Prod.mk.injEq, hk2, false_and]
        tauto
    · rw [if_neg hc, ih]
      have hm : inputMarks a (i :: r) = inputMarks a r := by
        simp [inputMarks, hc]
      rw [hm]

/-- The table invariant is preserved by the input phase of the next
transaction. -/
theorem invMap_step (a : Str) (m : SpentMap) (pre : List Transaction)
    (tx : Transaction) (h : invMap a m pre) :
    invMap a (if tx.IsCoinbase then m else markInputs a m tx.Vin) (pre ++ [tx]) := by
  intro k v
  have hms : marksList a (pre ++ [tx]) = marksList a pre ++ txMarks a tx := by
    simp [marksList, List.flatMap_append]
  rw [hms]
  by_cases hc : tx.IsCoinbase
  · rw [if_pos hc]
    unfold txMarks
    rw [if_pos hc]
    simp [h k v]
  · rw [if_neg hc, mem_lookupSpent_markInputs]
    unfold txMarks
    rw [if_neg hc]
    simp [h k v, List.mem_append]

/-- The output phase appends the transaction once per qualifying
output. -/
theorem collectUnspent_replicate (a : Str) (spent : List Int) (tx : Transaction) :
    ∀ (outs : List TXOutput) (i : Nat),
      collectUnspent a spent tx i outs =
        List.replicate (qualCount a spent i outs) tx := by
  intro outs
  induction outs with
  | nil => intro i; rfl
  | cons o r ih =>
    intro i
    unfold collectUnspent qualCount
    by_cases h1 : (Int.ofNat i) ∈ spent
    · rw [if_pos h1, if_pos h1, ih]
      simp
    · rw [if_neg h1, if_neg h1]
      by_cases h2 : o.CanBeUnlockedWith a
      · rw [if_pos h2, if_pos h2, ih, Nat.add_comm 1 _, List.replicate_succ]
        rfl
      · rw [if_neg h2, if_neg h2, ih]
        simp

/-- `qualCount` only observes membership in the spent-index list. -/
theorem qualCount_congr (a : Str) (s1 s2 : List Int)
    (h : ∀ x, x ∈ s1 ↔ x ∈ s2) :
    ∀ (outs : List TXOutput) (i : Nat),
      qualCount a s1 i outs = qualCount a s2 i outs := by
  intro outs
  induction outs with
  | nil => intro i; rfl
  | cons o r ih =>
    intro i
    unfold qualCount
    rw [ih]
    by_cases h1 : (Int.ofNat i) ∈ s1
    · rw [if_pos h1, if_pos ((h _).mp h1)]
    · rw [if_neg h1, if_neg (fun hx => h1 ((h _).mpr hx))]

/-- Membership in the per-key projection of a pair list. -/
theorem mem_pairsAt (pairs : List (Str × Int)) (k : Str) (v : Int) :
    v ∈ pairsAt pairs k ↔ (k, v) ∈ pairs := by
  unfold pairsAt
  simp only [List.mem_map, List.mem_filter]
  constructor
  · rintro ⟨⟨p1, p2⟩, ⟨hp, hpk⟩, hpv⟩
    simp only [beq_iff_eq] at hpk
    simp only at hpv
    rw [← hpk, ← hpv] at *
    exact hp
  · intro hp
    exact ⟨(k, v), ⟨hp, by simp⟩, rfl⟩

/-- Main invariant of the unspent-transaction scan: processing a
transaction list from a table representing the marks of `pre` appends,
for each transaction, one copy per output that is unspent relative to
the *global* mark list — provided no transaction's inputs refer to the
id of an earlier-scanned transaction. -/
theorem foldl_processTx_spec (a : Str) :
    ∀ (ts pre : List Transaction) (m : SpentMap) (acc : List Transaction),
      invMap a m pre →
      noLateRef a (pre ++ ts) →
      (ts.foldl (processTx a) (m, acc)).2 =
        acc ++ ts.flatMap
          (fun t => List.replicate (specUnspentCount a (pre ++ ts) t) t) := by
  intro ts
  induction ts with
  | nil => intro pre m acc hinv hnl; simp
  | cons t ts' ih =>
    intro pre m acc hinv hnl
    rw [List.foldl_cons]
    have hm' := invMap_step a m pre t hinv
    set m' := if t.IsCoinbase then m else markInputs a m t.Vin with hm'def
    have hstep : processTx a (m, acc) t =
        (m', acc ++ collectUnspent a (lookupSpent m' t.ID) t 0 t.Vout) := rfl
    have hl : (pre ++ [t]) ++ ts' = pre ++ t :: ts' := by
      rw [List.append_assoc, List.singleton_append]
    have hcnt : qualCount a (lookupSpent m' t.ID) 0 t.Vout =
        specUnspentCount a (pre ++ t :: ts') t := by
      unfold specUnspentCount
      apply qualCount_congr
      intro x
      rw [mem_pairsAt, hm' t.ID x]
      have hsplit : marksList a (pre ++ t :: ts') =
          marksList a (pre ++ [t]) ++ marksList a ts' := by
        unfold marksList
        rw [← List.flatMap_append, hl]
      rw [hsplit, List.mem_append]
      constructor
      · exact Or.inl
      · rintro (h | h)
        · exact h
        · exfalso
          have hnl2 : List.Pairwise (fun t u => u.IsCoinbase = false →
              ∀ inp ∈ u.Vin, inp.CanUnlockOutputWith a = true → inp.Txid ≠ t.ID)
              (pre ++ t :: ts') := hnl
          rw [List.pairwise_append] at hnl2
          have hR := (List.pairwise_cons.mp hnl2.2.1).1
          unfold marksList at h
          rw [List.mem_flatMap] at h
          obtain ⟨u, hu, hmem⟩ := h
          unfold txMarks at hmem
          by_cases hcb : u.IsCoinbase
          · rw [if_pos hcb] at hmem
            exact absurd hmem (by simp)
          · rw [if_neg hcb] at hmem
            have hfb : u.IsCoinbase = false := by
              revert hcb; cases u.IsCoinbase <;> simp
            simp only [inputMarks, List.mem_map, List.mem_filter] at hmem
            obtain ⟨inp, ⟨hinp, hcan⟩, heq⟩ := hmem
            exact hR u hu hfb inp hinp hcan (congrArg Prod.fst heq)
    rw [hstep, collectUnspent_replicate, hcnt]
    have hnl' : noLateRef a ((pre ++ [t]) ++ ts') := by
      rw [hl]; exact hnl
    rw [ih (pre ++ [t]) m'
      (acc ++ List.replicate (specUnspentCount a (pre ++ t :: ts') t) t) hm' hnl']
    rw [hl, List.flatMap_cons, List.append_assoc]

/-- The block loop equals a single fold over the transactions of the
scanned portion of the (reversed) block list. -/
theorem scanRev_eq_foldl (a : Str) :
    ∀ (rbs : List Block) (m : SpentMap) (acc : List Transaction),
      scanRev a m acc rbs =
        (((rbs.takeWhile fun b => !b.Transactions.isEmpty).flatMap
          (·.Transactions)).foldl (processTx a) (m, acc)).2 := by
  intro rbs
  induction rbs with
  | nil => intro m acc; rfl
  | cons b r ih =>
    intro m acc
    unfold scanRev
    rw [List.takeWhile_cons]
    by_cases he : b.Transactions.isEmpty
    · rw [if_pos he, he]
      simp
    · have hf : b.Transactions.isEmpty = false := by
        revert he; cases b.Transactions.isEmpty <;> simp
      rw [if_neg he, hf]
      simp only [Bool.not_false, if_pos]
      rw [List.flatMap_cons, List.foldl_append]
      exact ih _ _

/-- Closed form of `FindUnspentTransactions` under the no-late-reference
hypothesis: each scanned transaction occurs once per output that the
spec judges unspent-and-relevant. -/
theorem findUnspent_closed (bc : Blockchain) (a : Str)
    (h : noLateRef a (scannedTxs bc)) :
    FindUnspentTransactions bc a =
      (scannedTxs bc).flatMap
        (fun t => List.replicate (specUnspentCount a (scannedTxs bc) t) t) := by
  unfold FindUnspentTransactions
  rw [scanRev_eq_foldl]
  have h0 : invMap a [] [] := by intro k v; simp [lookupSpent, marksList]
  have hmain := foldl_processTx_spec a (scannedTxs bc) [] [] [] h0
    (by rw [List.nil_append]; exact h)
  rw [List.nil_append] at hmain
  exact hmain

/-- The imperative append loop of `FindUTXO` as a `flatMap`. -/
theorem foldl_append_outs (a : Str) :
    ∀ (l : List Transaction) (acc : List TXOutput),
      l.foldl (fun acc tx => acc ++ tx.Vout.filter (·.CanBeUnlockedWith a)) acc =
        acc ++ l.flatMap (fun tx => tx.Vout.filter (·.CanBeUnlockedWith a)) := by
  intro l
  induction l with
  | nil => intro acc; simp
  | cons t r ih =>
    intro acc
    rw [List.foldl_cons, ih, List.flatMap_cons, List.append_assoc]

/-- The balance fold is the sum of the values. -/
theorem foldl_add_value :
    ∀ (l : List TXOutput) (s : Int),
      l.foldl (fun s o => s + o.Value) s = s + (l.map (·.Value)).sum := by
  intro l
  induction l with
  | nil => intro s; simp
  | cons o r ih =>
    intro s
    rw [List.foldl_cons, ih, List.map_cons, List.sum_cons, add_assoc]

/-- Value contributed by `n` occurrences of one transaction. -/
theorem sum_replicate_outs (a : Str) (t : Transaction) :
    ∀ n : Nat, (((List.replicate n t).flatMap
        (fun tx => tx.Vout.filter (·.CanBeUnlockedWith a))).map (·.Value)).sum
      = (n : Int) * addressedSum a t := by
  intro n
  induction n with
  | zero => simp
  | succ k ih =>
    rw [List.replicate_succ, List.flatMap_cons, List.map_append, List.sum_append, ih]
    unfold addressedSum
    push_cast
    ring

/-- Value of the flattened occurrence list. -/
theorem sum_flatMap_replicate (a : Str) (c : Transaction → Nat) :
    ∀ L : List Transaction,
      (((L.flatMap (fun t => List.replicate (c t) t)).flatMap
        (fun tx => tx.Vout.filter (·.CanBeUnlockedWith a))).map (·.Value)).sum
      = (L.map (fun t => (c t : Int) * addressedSum a t)).sum := by
  intro L
  induction L with
  | nil => simp
  | cons t r ih =>
    rw [List.flatMap_cons, List.flatMap_append, List.map_append, List.sum_append,
      ih, sum_replicate_outs, List.map_cons, List.sum_cons]

/-- Counterexample for C4: on a chain whose single transaction has two
unspent outputs (5 and 7) locked to "A", `GetBalance` returns 24 — each
output is counted twice — while the spec's once-per-output sum is 12. -/
theorem c4_counterexample :
    GetBalance bc4 (strOf ("A")) = 24 ∧ specBalance (strOf ("A")) bc4 = 12 ∧
    GetBalance bc4 (strOf ("A")) ≠ specBalance (strOf ("A")) bc4 :=
  ⟨by decide, by decide, by decide⟩

/-- C4 as amended: provided no transaction spends an output of a
transaction at the same or a later scan position (spends sit in
strictly newer blocks), `GetBalance` equals the sum over the scanned
transactions of (number of unspent-and-relevant outputs of the
transaction) × (sum of *all* its outputs locked to the address): each
unspent output causes one occurrence of its whole transaction, so
values are multiplied rather than counted once, and spent outputs of a
transaction with an unspent one are included. -/
theorem c4_amended_balance (bc : Blockchain) (a : Str)
    (h : noLateRef a (scannedTxs bc)) :
    GetBalance bc a = ((scannedTxs bc).map
      (fun t => (specUnspentCount a (scannedTxs bc) t : Int) * addressedSum a t)).sum := by
  unfold GetBalance FindUTXO
  rw [foldl_add_value, foldl_append_outs, List.nil_append, zero_add,
    findUnspent_closed bc a h, sum_flatMap_replicate]

/-- Witness for C4 (amended): the counterexample chain satisfies the
hypothesis (its only transaction has no inputs), and the multiplicity
formula evaluates to the observed 24 = 2 × (5 + 7). -/
theorem c4_witness :
    noLateRef (strOf ("A")) (scannedTxs bc4) ∧
    GetBalance bc4 (strOf ("A")) = ((scannedTxs bc4).map
      (fun t => (specUnspentCount (strOf ("A")) (scannedTxs bc4) t : Int)
        * addressedSum (strOf ("A")) t)).sum :=
  ⟨by decide, c4_amended_balance bc4 (strOf ("A")) (by decide)⟩

/-- Witness for C6 (amended): the genesis facts at a concrete `setID`
and the nonempty timestamp `"x"`. -/
theorem c6_witness :
    (NewGenesisBlock sha256 setID0 (strOf ("x"))).PrevHash = [] ∧
    (NewGenesisBlock sha256 setID0 (strOf ("x"))).Nonce = [] ∧
    (NewGenesisBlock sha256 setID0 (strOf ("x"))).Transactions =
      [NewCoinbaseTX setID0 (strOf ("Ivan")) genesisCoinbaseData] ∧
    (NewGenesisBlock sha256 setID0 (strOf ("x"))).Hash = calculateHash sha256 emptyBlock ∧
    (NewGenesisBlock sha256 setID0 (strOf ("x"))).Hash.take difficulty
      ≠ List.replicate difficulty '0' ∧
    calculateHash sha256 (NewGenesisBlock sha256 setID0 (strOf ("x")))
      ≠ (NewGenesisBlock sha256 setID0 (strOf ("x"))).Hash :=
  c6_amended setID0 (strOf ("x"))

/-- Witness for C7 (amended): `AddBlock` on a concrete chain and block. -/
theorem c7_witness : (AddBlock c7chain c7bad).blocks = c7chain.blocks ++ [c7bad] :=
  c7_amended.1 c7chain c7bad

/-- Witness for C10: the zero-amount transfer on the concrete initial
ledger. -/
theorem c10_witness :
    FindSpendableOutputs bc9 ivanS 0 = (0, []) ∧
    NewUTXOTransaction setID0 ivanS bobS 0 bc9 =
      .ok { ID := setID0 ⟨[], [], [⟨0, bobS⟩]⟩, Vin := [], Vout := [⟨0, bobS⟩] } ∧
    Transaction.IsCoinbase
      { ID := setID0 ⟨[], [], [⟨0, bobS⟩]⟩, Vin := [], Vout := [⟨0, bobS⟩] } = false :=
  c10_zero_amount setID0 bc9 ivanS bobS

end GoChain
